import Mathlib

/-!
Verification of the prediction-ranking and data-preparation logic of the
cats-vs-dogs transfer-learning notebook
(`1-keras-classifier-with-transfer-learning.ipynb`).

The notebook's analysable logic consists of:
* the dataset split script (cell 2): shuffle the cat/dog file lists and move
  slices `[:250]` into `train` and `[250:500]` into `val`;
* the training-step computation (cell 17):
  `steps_per_epoch = math.ceil(float(TRAIN_SAMPLES) / BATCH_SIZE)`;
* the prediction-table construction (cell 26): for each per-sample
  class-probability vector take `np.argmax` and the value there, pair with the
  ground-truth label, and assert the three lengths agree;
* the ranker `get_images_with_sorted_probabilities`, whose definition is not
  present in the repository (only call sites are); it is modelled from the
  specification's contract `rank(table, target_label, want_highest,
  only_errors, limit)`.

Probabilities are modelled as rationals, labels and sample indices as
naturals.
-/

namespace Notebook

/-- A row of the notebook's `prediction_table`:
`[value_of_highest_probability, index_of_highest_probability, ground_truth[index]]`. -/
structure PredictionRecord where
  confidence : ℚ
  predicted_label : ℕ
  true_label : ℕ
deriving DecidableEq, Repr

/-! ### Cell 8 and cell 17: training constants and step counts -/

/-- `TRAIN_SAMPLES = 500` (cell 8). -/
def TRAIN_SAMPLES : ℕ := 500

/-- `VALIDATION_SAMPLES = 500` (cell 8). -/
def VALIDATION_SAMPLES : ℕ := 500

/-- `BATCH_SIZE = 64` (cell 8). -/
def BATCH_SIZE : ℕ := 64

/-- `math.ceil(float(TRAIN_SAMPLES) / BATCH_SIZE)` from `model.fit_generator`
(cell 17); the quotient 500/64 = 7.8125 is exactly representable, so the
rational model agrees with the floating-point computation. -/
def steps_per_epoch : ℤ := ⌈(TRAIN_SAMPLES : ℚ) / (BATCH_SIZE : ℚ)⌉

/-- `math.ceil(float(VALIDATION_SAMPLES) / BATCH_SIZE)` from
`model.fit_generator` (cell 17). -/
def validation_steps : ℤ := ⌈(VALIDATION_SAMPLES : ℚ) / (BATCH_SIZE : ℚ)⌉

/-! ### Cell 2: dataset split -/

/-- The split of one class's shuffled file list (cell 2): `files[:250]` is
moved into the `train` folder and `files[250:500]` into the `val` folder. -/
def splitClass {α : Type} (files : List α) : List α × List α :=
  (files.take 250, (files.drop 250).take 250)

/-! ### The prediction ranker (modelled from the spec) -/

/-- Modelled from the spec: the sort key of the ranker. The spec orders by
`confidence`, descending if `want_highest` else ascending, ties broken by
ascending index; negating the confidence when `want_highest` turns both
directions into one ascending lexicographic comparison. -/
def rankKey (want_highest : Bool) (p : ℕ × PredictionRecord) : ℚ × ℕ :=
  (if want_highest then -p.2.confidence else p.2.confidence, p.1)

/-- Modelled from the spec: the lexicographic order on sort keys used by the
ranker's sort. -/
def rankRel (want_highest : Bool) (a b : ℕ × PredictionRecord) : Prop :=
  (rankKey want_highest a).1 < (rankKey want_highest b).1 ∨
    ((rankKey want_highest a).1 = (rankKey want_highest b).1 ∧
      (rankKey want_highest a).2 ≤ (rankKey want_highest b).2)

instance (w : Bool) : DecidableRel (rankRel w) := fun a b => by
  unfold rankRel; infer_instance

instance (w : Bool) : IsTotal (ℕ × PredictionRecord) (rankRel w) where
  total a b := by
    unfold rankRel
    rcases lt_trichotomy (rankKey w a).1 (rankKey w b).1 with h | h | h
    · exact Or.inl (Or.inl h)
    · rcases le_total (rankKey w a).2 (rankKey w b).2 with h2 | h2
      · exact Or.inl (Or.inr ⟨h, h2⟩)
      · exact Or.inr (Or.inr ⟨h.symm, h2⟩)
    · exact Or.inr (Or.inl h)

instance (w : Bool) : IsTrans (ℕ × PredictionRecord) (rankRel w) where
  trans a b c hab hbc := by
    unfold rankRel at hab hbc ⊢
    rcases hab with h1 | ⟨e1, l1⟩ <;> rcases hbc with h2 | ⟨e2, l2⟩
    · exact Or.inl (h1.trans h2)
    · exact Or.inl (e2 ▸ h1)
    · exact Or.inl (e1 ▸ h2)
    · exact Or.inr ⟨e1.trans e2, l1.trans l2⟩

/-- Modelled from the spec: the ranker's filter predicate. Keep entries where
`predicted_label == target_label`; if `only_errors` is true, additionally
require `predicted_label != true_label`. -/
def matchP (target_label : ℕ) (only_errors : Bool) (p : ℕ × PredictionRecord) : Bool :=
  decide (p.2.predicted_label = target_label) &&
    (!only_errors || decide (p.2.predicted_label ≠ p.2.true_label))

/-- Modelled from the spec: `get_images_with_sorted_probabilities` is called
by the notebook (cells 26-33) but its definition is not in the repository.
Following the spec's contract `rank(table, target_label, want_highest,
only_errors, limit)`: filter, sort by confidence in the requested direction
with index tiebreak, truncate to `limit`. -/
def rank (table : List (ℕ × PredictionRecord)) (target_label : ℕ)
    (want_highest only_errors : Bool) (limit : ℕ) : List (ℕ × PredictionRecord) :=
  (List.insertionSort (rankRel want_highest)
    (table.filter (matchP target_label only_errors))).take limit

/-- Modelled from the spec: the ranker call viewed as a state-passing
operation on the prediction table, so that freedom from side effects is a
provable statement. The spec's steps build the output from fresh lists
(filter, sort, truncate) and hand the table back untouched. -/
def rankCall (table : List (ℕ × PredictionRecord)) (target_label : ℕ)
    (want_highest only_errors : Bool) (limit : ℕ) :
    List (ℕ × PredictionRecord) × List (ℕ × PredictionRecord) :=
  let filtered := table.filter (matchP target_label only_errors)
  let sorted := List.insertionSort (rankRel want_highest) filtered
  (sorted.take limit, table)

/-- The ordering relation stated by the spec: earlier entries have strictly
larger confidence (when `want_highest`) or strictly smaller confidence
(otherwise), and ties in confidence are resolved by ascending index. -/
def claimOrder (want_highest : Bool) (a b : ℕ × PredictionRecord) : Prop :=
  (if want_highest then b.2.confidence < a.2.confidence
    else a.2.confidence < b.2.confidence) ∨
    (a.2.confidence = b.2.confidence ∧ a.1 ≤ b.1)

/-- The two-record table of the spec's testable property:
records [(0,0.9,1,1),(1,0.2,1,0)]. -/
def exampleTable : List (ℕ × PredictionRecord) :=
  [(0, ⟨9/10, 1, 1⟩), (1, ⟨2/10, 1, 0⟩)]

/-! ### Cell 26: building the prediction table -/

/-- The running state of `np.argmax` over the tail of a probability vector:
`i` is the position of the next element, `bi`/`bv` the index and value of the
best element so far. `np.argmax` keeps the first occurrence of the maximum,
so the best is replaced only on a strictly larger value. -/
def argmaxFrom : List ℚ → ℕ → ℕ → ℚ → ℕ × ℚ
  | [], _, bi, bv => (bi, bv)
  | x :: xs, i, bi, bv =>
      if bv < x then argmaxFrom xs (i + 1) i x else argmaxFrom xs (i + 1) bi bv

/-- `np.argmax(val)` together with `val[np.argmax(val)]`, i.e. the notebook's
`index_of_highest_probability` and `value_of_highest_probability`; `none` on
the empty vector, where `np.argmax` raises. -/
def np_argmax : List ℚ → Option (ℕ × ℚ)
  | [] => none
  | x :: xs => some (argmaxFrom xs 1 0 x)

/-- The loop of cell 26 from sample index `i` on: for each probability vector
`val` store `[value_of_highest_probability, index_of_highest_probability,
ground_truth[index]]`; `none` models the exceptions (`np.argmax` on an empty
vector, `ground_truth[index]` out of range). -/
def buildAux (gt : List ℕ) : ℕ → List (List ℚ) → Option (List (ℕ × PredictionRecord))
  | _, [] => some []
  | i, v :: rest =>
      match np_argmax v, gt[i]?, buildAux gt (i + 1) rest with
      | some (pl, conf), some g, some t => some ((i, ⟨conf, pl, g⟩) :: t)
      | _, _, _ => none

/-- The notebook's `prediction_table` (cell 26), as the association list of
`index : [probability, predicted_index, ground_truth]` entries in index
order. -/
def buildPredictionTable (predictions : List (List ℚ)) (gt : List ℕ) :
    Option (List (ℕ × PredictionRecord)) :=
  buildAux gt 0 predictions

/-- Class-probability vectors realising the spec's example table: the
maximum of `[1/10, 9/10]` is `9/10` at index 1, the maximum of `[1/10, 2/10]`
is `2/10` at index 1. -/
def examplePredictions : List (List ℚ) :=
  [[1/10, 9/10], [1/10, 2/10]]

/-- Ground-truth labels realising the spec's example table. -/
def exampleGroundTruth : List ℕ := [1, 0]

end Notebook

namespace Notebook

theorem splitClass_spec {α : Type} (files : List α)
    (hnd : files.Nodup) (hlen : 500 ≤ files.length) :
    (splitClass files).1.length = 250 ∧
    (splitClass files).2.length = 250 ∧
    (splitClass files).1.Disjoint (splitClass files).2 ∧
    ((splitClass files).1 ++ (splitClass files).2).Nodup := by
  have h250 : (250 : ℕ) ≤ files.length := by omega
  have hdrop : 250 ≤ (files.drop 250).length := by
    simp [List.length_drop]; omega
  have happ : (splitClass files).1 ++ (splitClass files).2 = files.take 500 := by
    simp only [splitClass]
    rw [← List.take_add]
  have hnodup : ((splitClass files).1 ++ (splitClass files).2).Nodup := by
    rw [happ]
    exact hnd.sublist (List.take_sublist _ _)
  refine ⟨?_, ?_, ?_, hnodup⟩
  · simp [splitClass, List.length_take]; omega
  · simp [splitClass, List.length_take, List.length_drop]; omega
  · exact (List.nodup_append.mp hnodup).2.2

/-- C9: with at least 500 distinct cat-named and 500 distinct dog-named files,
the split script places exactly 250 files of each class in `train` and the
next 250 of each shuffled list in `val`; within each class the train and val
sets are disjoint and their concatenation has no duplicate, so every selected
file is moved exactly once. -/
theorem dataset_split_correct {α : Type} (catFiles dogFiles : List α)
    (hcnd : catFiles.Nodup) (hclen : 500 ≤ catFiles.length)
    (hdnd : dogFiles.Nodup) (hdlen : 500 ≤ dogFiles.length) :
    ((splitClass catFiles).1.length = 250 ∧ (splitClass catFiles).2.length = 250 ∧
      (splitClass catFiles).1.Disjoint (splitClass catFiles).2 ∧
      ((splitClass catFiles).1 ++ (splitClass catFiles).2).Nodup) ∧
    ((splitClass dogFiles).1.length = 250 ∧ (splitClass dogFiles).2.length = 250 ∧
      (splitClass dogFiles).1.Disjoint (splitClass dogFiles).2 ∧
      ((splitClass dogFiles).1 ++ (splitClass dogFiles).2).Nodup) :=
  ⟨splitClass_spec catFiles hcnd hclen, splitClass_spec dogFiles hdnd hdlen⟩

/-- Witness for C9 at the concrete lists `List.range 500`. -/
theorem dataset_split_correct_witness :
    ((splitClass (List.range 500)).1.length = 250 ∧
      (splitClass (List.range 500)).2.length = 250 ∧
      (splitClass (List.range 500)).1.Disjoint (splitClass (List.range 500)).2 ∧
      ((splitClass (List.range 500)).1 ++ (splitClass (List.range 500)).2).Nodup) ∧
    ((splitClass (List.range 500)).1.length = 250 ∧
      (splitClass (List.range 500)).2.length = 250 ∧
      (splitClass (List.range 500)).1.Disjoint (splitClass (List.range 500)).2 ∧
      ((splitClass (List.range 500)).1 ++ (splitClass (List.range 500)).2).Nodup) :=
  dataset_split_correct (List.range 500) (List.range 500)
    (List.nodup_range 500) (by simp) (List.nodup_range 500) (by simp)

/-- C10: with `TRAIN_SAMPLES = VALIDATION_SAMPLES = 500` and
`BATCH_SIZE = 64`, both `steps_per_epoch` and `validation_steps` passed to
`fit_generator` evaluate to `ceil(500 / 64) = 8`. -/
theorem fit_steps_eq_eight : steps_per_epoch = 8 ∧ validation_steps = 8 := by
  constructor
  · norm_num [steps_per_epoch, TRAIN_SAMPLES, BATCH_SIZE, Int.ceil_eq_iff]
  · norm_num [validation_steps, VALIDATION_SAMPLES, BATCH_SIZE, Int.ceil_eq_iff]

/-- C1: the ranker's output length is at most `limit` and at most the number
of matching records, and when `limit` covers the whole matching set the
output is (a reordering of) all matching records. -/
theorem rank_length_spec (table : List (ℕ × PredictionRecord)) (tl : ℕ)
    (w e : Bool) (n : ℕ) :
    (rank table tl w e n).length ≤ n ∧
    (rank table tl w e n).length ≤ (table.filter (matchP tl e)).length ∧
    ((table.filter (matchP tl e)).length ≤ n →
      List.Perm (rank table tl w e n) (table.filter (matchP tl e))) := by
  have hperm := List.perm_insertionSort (rankRel w) (table.filter (matchP tl e))
  have hlen : (List.insertionSort (rankRel w) (table.filter (matchP tl e))).length
      = (table.filter (matchP tl e)).length := hperm.length_eq
  refine ⟨List.length_take_le n _, ?_, ?_⟩
  · calc (rank table tl w e n).length
        ≤ (List.insertionSort (rankRel w) (table.filter (matchP tl e))).length :=
          (List.take_sublist _ _).length_le
      _ = (table.filter (matchP tl e)).length := hlen
  · intro hle
    unfold rank
    rw [List.take_of_length_le (by rw [hlen]; exact hle)]
    exact hperm

/-- Witness for C1 on the spec's two-record example table, with a limit large
enough to return every matching record. -/
theorem rank_length_spec_witness :
    (rank exampleTable 1 true false 10).length ≤ 10 ∧
    List.Perm (rank exampleTable 1 true false 10) (exampleTable.filter (matchP 1 false)) :=
  ⟨(rank_length_spec exampleTable 1 true false 10).1,
    (rank_length_spec exampleTable 1 true false 10).2.2 (by
      simp [exampleTable, matchP, List.filter])⟩

/-- C2: every entry of the ranker's output has `predicted_label` equal to the
target label, and when `only_errors` is set its `predicted_label` differs
from its `true_label`. -/
theorem rank_mem_spec (table : List (ℕ × PredictionRecord)) (tl : ℕ)
    (w e : Bool) (n : ℕ) (p : ℕ × PredictionRecord)
    (hp : p ∈ rank table tl w e n) :
    p.2.predicted_label = tl ∧
    (e = true → p.2.predicted_label ≠ p.2.true_label) := by
  have h1 : p ∈ List.insertionSort (rankRel w) (table.filter (matchP tl e)) :=
    List.mem_of_mem_take hp
  have h2 : p ∈ table.filter (matchP tl e) :=
    (List.perm_insertionSort _ _).mem_iff.mp h1
  have h3 := List.of_mem_filter h2
  simp only [matchP, Bool.and_eq_true, Bool.or_eq_true, Bool.not_eq_true',
    decide_eq_true_eq] at h3
  refine ⟨h3.1, fun he => ?_⟩
  rcases h3.2 with hfalse | hne
  · rw [he] at hfalse; cases hfalse
  · exact hne

/-- Witness for C2: the sole wrong dog prediction of the example table. -/
theorem rank_mem_spec_witness :
    ((1, (⟨2/10, 1, 0⟩ : PredictionRecord)) : ℕ × PredictionRecord).2.predicted_label = 1 ∧
    (true = true →
      ((1, (⟨2/10, 1, 0⟩ : PredictionRecord)) : ℕ × PredictionRecord).2.predicted_label ≠
        ((1, (⟨2/10, 1, 0⟩ : PredictionRecord)) : ℕ × PredictionRecord).2.true_label) :=
  rank_mem_spec exampleTable 1 true true 10 (1, ⟨2/10, 1, 0⟩) (by
    norm_num [rank, exampleTable, matchP, List.filter, List.insertionSort,
      List.orderedInsert, rankRel, rankKey])

/-- C3: the ranker's output is sorted by confidence — descending when
`want_highest`, ascending otherwise, ties broken by ascending index — and on
the spec's example table (records [(0,0.9,1,1),(1,0.2,1,0)]) with label 1 and
highest-first the output indices are [0, 1]. -/
theorem rank_sorted_spec (table : List (ℕ × PredictionRecord)) (tl : ℕ)
    (w e : Bool) (n : ℕ) :
    (rank table tl w e n).Pairwise (claimOrder w) ∧
    (rank exampleTable 1 true false 10).map Prod.fst = [0, 1] := by
  constructor
  · have hs : (List.insertionSort (rankRel w)
        (table.filter (matchP tl e))).Pairwise (rankRel w) :=
      List.sorted_insertionSort (rankRel w) _
    have ht : (rank table tl w e n).Pairwise (rankRel w) :=
      hs.sublist (List.take_sublist _ _)
    refine ht.imp ?_
    intro a b hab
    rcases hab with hlt | ⟨heq, hle⟩
    · cases w with
      | false =>
          simp only [rankKey, if_neg Bool.false_ne_true] at hlt
          exact Or.inl (by simpa [claimOrder] using hlt)
      | true =>
          simp only [rankKey, if_pos rfl] at hlt
          exact Or.inl (by simpa [claimOrder] using neg_lt_neg_iff.mp hlt)
    · cases w with
      | false =>
          simp only [rankKey, if_neg Bool.false_ne_true] at heq hle
          exact Or.inr ⟨heq, hle⟩
      | true =>
          simp only [rankKey, if_pos rfl] at heq hle
          exact Or.inr ⟨neg_inj.mp heq, hle⟩
  · norm_num [rank, exampleTable, matchP, List.filter, List.insertionSort,
      List.orderedInsert, rankRel, rankKey]

/-- C4: the ranker is total: the empty table yields the empty sequence, and a
target label matching no record's prediction yields the empty sequence. -/
theorem rank_total_spec (tl : ℕ) (w e : Bool) (n : ℕ) :
    rank [] tl w e n = [] ∧
    (∀ table : List (ℕ × PredictionRecord),
      table.filter (matchP tl e) = [] → rank table tl w e n = []) ∧
    ∀ table : List (ℕ × PredictionRecord),
      (∀ p ∈ table, p.2.predicted_label ≠ tl) → rank table tl w e n = [] := by
  have hempty : ∀ table : List (ℕ × PredictionRecord),
      table.filter (matchP tl e) = [] → rank table tl w e n = [] := by
    intro table hf
    unfold rank
    rw [hf]
    simp
  refine ⟨by simp [rank], hempty, ?_⟩
  intro table h
  apply hempty
  rw [List.filter_eq_nil_iff]
  intro p hp
  simp [matchP, h p hp]

/-- Witness for C4: the empty table; a one-record table whose filtered set is
emptied by `only_errors` (the record predicts its true label); and the
example table with a label matching no record. All return the empty
sequence. -/
theorem rank_total_spec_witness :
    rank [] 7 true false 3 = [] ∧
    rank [(0, ⟨9/10, 1, 1⟩)] 1 true true 3 = [] ∧
    rank exampleTable 7 true false 3 = [] :=
  ⟨(rank_total_spec 7 true false 3).1,
    (rank_total_spec 1 true true 3).2.1 [(0, ⟨9/10, 1, 1⟩)] (by
      simp [matchP, List.filter]),
    (rank_total_spec 7 true false 3).2.2 exampleTable (by
      simp [exampleTable])⟩

/-- C5: the ranker is deterministic: two calls with identical inputs return
identical output sequences. -/
theorem rank_deterministic (table : List (ℕ × PredictionRecord)) (tl : ℕ)
    (w e : Bool) (n : ℕ) :
    rank table tl w e n = rank table tl w e n := rfl

/-- C6: the ranker call, viewed as a state-passing operation on the
prediction table, returns the table unchanged while computing exactly the
ranked sequence: the table is read-only. -/
theorem rank_no_side_effects (table : List (ℕ × PredictionRecord)) (tl : ℕ)
    (w e : Bool) (n : ℕ) :
    (rankCall table tl w e n).2 = table ∧
    (rankCall table tl w e n).1 = rank table tl w e n :=
  ⟨rfl, rfl⟩

theorem argmaxFrom_le (xs : List ℚ) :
    ∀ (i bi : ℕ) (bv : ℚ), bv ≤ (argmaxFrom xs i bi bv).2 := by
  induction xs with
  | nil => intro i bi bv; simp [argmaxFrom]
  | cons x xs ih =>
      intro i bi bv
      by_cases h : bv < x
      · simp only [argmaxFrom, if_pos h]
        exact le_of_lt (lt_of_lt_of_le h (ih (i + 1) i x))
      · simp only [argmaxFrom, if_neg h]
        exact ih (i + 1) bi bv

theorem argmaxFrom_mem_le (xs : List ℚ) :
    ∀ (i bi : ℕ) (bv : ℚ), ∀ y ∈ xs, y ≤ (argmaxFrom xs i bi bv).2 := by
  induction xs with
  | nil => intro _ _ _ y hy; cases hy
  | cons x xs ih =>
      intro i bi bv y hy
      by_cases h : bv < x
      · simp only [argmaxFrom, if_pos h]
        rcases List.mem_cons.mp hy with rfl | hy2
        · exact argmaxFrom_le xs (i + 1) i y
        · exact ih (i + 1) i x y hy2
      · simp only [argmaxFrom, if_neg h]
        rcases List.mem_cons.mp hy with rfl | hy2
        · exact le_trans (le_of_not_lt h) (argmaxFrom_le xs (i + 1) bi bv)
        · exact ih (i + 1) bi bv y hy2

theorem argmaxFrom_attained (xs : List ℚ) :
    ∀ (i bi : ℕ) (bv : ℚ),
      ((argmaxFrom xs i bi bv).1 = bi ∧ (argmaxFrom xs i bi bv).2 = bv) ∨
      ∃ k, xs[k]? = some (argmaxFrom xs i bi bv).2 ∧
        (argmaxFrom xs i bi bv).1 = i + k := by
  induction xs with
  | nil => intro i bi bv; exact Or.inl ⟨rfl, rfl⟩
  | cons x xs ih =>
      intro i bi bv
      by_cases h : bv < x
      · simp only [argmaxFrom, if_pos h]
        rcases ih (i + 1) i x with ⟨h1, h2⟩ | ⟨k, hk, hik⟩
        · exact Or.inr ⟨0, by simp [h2], by simp [h1]⟩
        · exact Or.inr ⟨k + 1, by simpa using hk, by rw [hik]; omega⟩
      · simp only [argmaxFrom, if_neg h]
        rcases ih (i + 1) bi bv with hcase | ⟨k, hk, hik⟩
        · exact Or.inl hcase
        · exact Or.inr ⟨k + 1, by simpa using hk, by rw [hik]; omega⟩

theorem np_argmax_spec (v : List ℚ) (pl : ℕ) (conf : ℚ)
    (h : np_argmax v = some (pl, conf)) :
    v[pl]? = some conf ∧ ∀ y ∈ v, y ≤ conf := by
  cases v with
  | nil => cases h
  | cons x xs =>
      simp only [np_argmax, Option.some.injEq] at h
      constructor
      · rcases argmaxFrom_attained xs 1 0 x with ⟨h1, h2⟩ | ⟨k, hk, hik⟩
        · rw [h] at h1 h2
          have hpl : pl = 0 := by simpa using h1
          have hconf : conf = x := by simpa using h2
          subst hpl
          subst hconf
          simp
        · rw [h] at hk hik
          have hpl : pl = 1 + k := by simpa using hik
          have hk2 : xs[k]? = some conf := by simpa using hk
          subst hpl
          rw [show 1 + k = k + 1 by omega]
          simpa using hk2
      · intro y hy
        rcases List.mem_cons.mp hy with rfl | hy2
        · have := argmaxFrom_le xs 1 0 y
          rw [h] at this
          exact this
        · have := argmaxFrom_mem_le xs 1 0 x y hy2
          rw [h] at this
          exact this

theorem buildAux_spec (gt : List ℕ) (preds : List (List ℚ)) :
    ∀ (i : ℕ) (t : List (ℕ × PredictionRecord)), buildAux gt i preds = some t →
      t.map Prod.fst = List.range' i preds.length ∧
      ∀ p ∈ t, ∃ k v, p.1 = i + k ∧ preds[k]? = some v ∧
        np_argmax v = some (p.2.predicted_label, p.2.confidence) ∧
        gt[p.1]? = some p.2.true_label := by
  induction preds with
  | nil =>
      intro i t h
      simp only [buildAux, Option.some.injEq] at h
      subst h
      exact ⟨by simp [List.range'], by simp⟩
  | cons v rest ih =>
      intro i t h
      simp only [buildAux] at h
      cases ha : np_argmax v with
      | none => rw [ha] at h; cases h
      | some pc =>
          obtain ⟨pl, conf⟩ := pc
          rw [ha] at h
          cases hg : gt[i]? with
          | none => rw [hg] at h; cases h
          | some g =>
              rw [hg] at h
              cases hb : buildAux gt (i + 1) rest with
              | none => rw [hb] at h; cases h
              | some t2 =>
                  rw [hb] at h
                  simp only [Option.some.injEq] at h
                  subst h
                  obtain ⟨hmap, hmem⟩ := ih (i + 1) t2 hb
                  constructor
                  · simp only [List.map_cons, hmap, List.length_cons]
                    rw [List.range'_succ]
                  · intro p hp
                    rcases List.mem_cons.mp hp with rfl | hp2
                    · exact ⟨0, v, by omega, by simp, by simpa using ha, by simpa using hg⟩
                    · obtain ⟨k, v2, hk, hv2, hnp, hgt⟩ := hmem p hp2
                      exact ⟨k + 1, v2, by omega, by simpa using hv2, hnp, hgt⟩

theorem buildAux_total (gt : List ℕ) (preds : List (List ℚ)) :
    ∀ i : ℕ, (∀ v ∈ preds, v ≠ []) → i + preds.length ≤ gt.length →
      ∃ t, buildAux gt i preds = some t := by
  induction preds with
  | nil => intro i _ _; exact ⟨[], rfl⟩
  | cons v rest ih =>
      intro i hne hlen
      obtain ⟨pl, conf, hnp⟩ : ∃ pl conf, np_argmax v = some (pl, conf) := by
        cases v with
        | nil => exact absurd rfl (hne [] (List.mem_cons_self _ _))
        | cons x xs => exact ⟨_, _, rfl⟩
      have hi : i < gt.length := by
        simp only [List.length_cons] at hlen; omega
      have hg : gt[i]? = some gt[i] := List.getElem?_eq_getElem hi
      obtain ⟨t2, ht2⟩ := ih (i + 1)
        (fun u hu => hne u (List.mem_cons_of_mem _ hu))
        (by simp only [List.length_cons] at hlen; omega)
      refine ⟨(i, ⟨conf, pl, gt[i]⟩) :: t2, ?_⟩
      simp only [buildAux]
      rw [hnp, hg, ht2]

/-- C7: every record of the prediction table stores as `confidence` the
maximum entry of its sample's class-probability vector, as `predicted_label`
an index attaining that maximum (`np.argmax`), and — for probability vectors
with entries in [0,1] — a confidence in [0,1]. -/
theorem prediction_table_argmax (predictions : List (List ℚ)) (gt : List ℕ)
    (t : List (ℕ × PredictionRecord))
    (ht : buildPredictionTable predictions gt = some t)
    (p : ℕ × PredictionRecord) (hp : p ∈ t) :
    ∃ v, predictions[p.1]? = some v ∧
      v[p.2.predicted_label]? = some p.2.confidence ∧
      (∀ y ∈ v, y ≤ p.2.confidence) ∧
      ((∀ y ∈ v, 0 ≤ y ∧ y ≤ 1) → 0 ≤ p.2.confidence ∧ p.2.confidence ≤ 1) := by
  obtain ⟨hmap, hmem⟩ := buildAux_spec gt predictions 0 t ht
  obtain ⟨k, v, hk, hv, hnp, hgt⟩ := hmem p hp
  obtain ⟨hget, hmax⟩ := np_argmax_spec v _ _ hnp
  have hkp : p.1 = k := by omega
  refine ⟨v, by rw [hkp]; exact hv, hget, hmax, ?_⟩
  intro hall
  have hconf : p.2.confidence ∈ v := by
    have := List.getElem?_eq_some_iff.mp hget
    obtain ⟨hlt, heq⟩ := this
    exact heq ▸ List.getElem_mem hlt
  exact ⟨(hall _ hconf).1, (hall _ hconf).2⟩

/-- Witness for C7 at the example vectors: sample 0 has maximum 9/10 at
index 1. -/
theorem prediction_table_argmax_witness :
    ∃ v, examplePredictions[(0 : ℕ)]? = some v ∧
      v[(1 : ℕ)]? = some (9/10 : ℚ) ∧
      (∀ y ∈ v, y ≤ (9/10 : ℚ)) ∧
      ((∀ y ∈ v, 0 ≤ y ∧ y ≤ 1) → 0 ≤ (9/10 : ℚ) ∧ (9/10 : ℚ) ≤ 1) :=
  prediction_table_argmax examplePredictions exampleGroundTruth exampleTable
    (by norm_num [buildPredictionTable, buildAux, np_argmax, argmaxFrom,
      examplePredictions, exampleGroundTruth, exampleTable])
    (0, ⟨9/10, 1, 1⟩) (by simp [exampleTable])

/-- C8: when the inference output and the ground-truth labels are aligned by
index (equal lengths) and each probability vector is nonempty, the prediction
table is built with exactly one record per sample, keyed 0 .. n-1 in order,
each record's `true_label` is the ground-truth label of its index, and the
notebook's assertion `len(predictions) == len(ground_truth) ==
len(prediction_table)` holds. -/
theorem prediction_table_complete (predictions : List (List ℚ)) (gt : List ℕ)
    (hlen : predictions.length = gt.length)
    (hne : ∀ v ∈ predictions, v ≠ []) :
    ∃ t, buildPredictionTable predictions gt = some t ∧
      t.map Prod.fst = List.range predictions.length ∧
      (∀ p ∈ t, gt[p.1]? = some p.2.true_label) ∧
      predictions.length = gt.length ∧ gt.length = t.length := by
  obtain ⟨t, ht⟩ := buildAux_total gt predictions 0 hne (by omega)
  obtain ⟨hmap, hmem⟩ := buildAux_spec gt predictions 0 t ht
  have hlen2 : t.length = predictions.length := by
    have := congrArg List.length hmap
    simpa using this
  refine ⟨t, ht, ?_, ?_, hlen, by omega⟩
  · rw [hmap, List.range_eq_range']
  · intro p hp
    obtain ⟨k, v, hk, hv, hnp, hgt⟩ := hmem p hp
    exact hgt

/-- Witness for C8 at the example vectors and ground truth. -/
theorem prediction_table_complete_witness :
    ∃ t, buildPredictionTable examplePredictions exampleGroundTruth = some t ∧
      t.map Prod.fst = List.range examplePredictions.length ∧
      (∀ p ∈ t, exampleGroundTruth[p.1]? = some p.2.true_label) ∧
      examplePredictions.length = exampleGroundTruth.length ∧
      exampleGroundTruth.length = t.length :=
  prediction_table_complete examplePredictions exampleGroundTruth
    (by simp [examplePredictions, exampleGroundTruth])
    (by simp [examplePredictions])

end Notebook
